import Mathlib

/-!
Verification of the gravity proxy's core logic against its specification.

The development shallowly embeds three modules:
* `src/api_client.py` — the streaming reassembler in
  `ApiClient.generate_assistant_response`;
* `src/utils.py` — the OpenAI → antigravity message translation;
* `src/token_manager.py` — round-robin credential rotation in
  `TokenManager.get_token`.

Python dictionaries are embedded as structures; `dict.get` defaults are
reflected in the field types (`Option` where absence matters, a default
value where the source supplies one).
-/

namespace Gravity

/-! ## Stream reassembler (`src/api_client.py`, `generate_assistant_response`)

A streamed line either lacks the `data: ` marker, fails JSON parsing, or
parses to a document carrying a candidate list.  Each candidate has content
parts and an optional `finishReason`.  A part mirrors the Python dict reads:
`part.get('thought') is True`, `'text' in part`, `'functionCall' in part`.
The `args` object of a function call is kept abstract as the string
`json.dumps` would produce for it, since the reassembler only ever forwards
that dump. -/

structure FC where
  id : Option String
  name : Option String
  argsJson : String
deriving DecidableEq, Repr

structure Part where
  thought : Bool
  text : Option String
  functionCall : Option FC
deriving DecidableEq, Repr

structure Candidate where
  parts : List Part
  finishReason : Option String
deriving DecidableEq, Repr

inductive Line where
  | noData
  | badJson
  | doc (candidates : List Candidate)
deriving DecidableEq, Repr

/-- One entry of the `tool_calls` batch the reassembler accumulates:
`{'id': fc.get('id'), 'type': 'function', 'function': {'name': ..., 'arguments': json.dumps(...)}}`. -/
structure ToolCallOut where
  id : Option String
  name : Option String
  argumentsJson : String
deriving DecidableEq, Repr

inductive Event where
  | thinking (content : String)
  | text (content : String)
  | tool_calls (calls : List ToolCallOut)
deriving DecidableEq, Repr

/-- Python truthiness of an optional string (`if finish_reason`). -/
def truthy : Option String → Bool
  | some s => s ≠ ""
  | none => false

def openThink : String := "<think>\n"

def closeThink : String := "\n</think>\n"

/-- Processing of one content part: the events emitted, the new
`thinking_started` flag, and the new pending `tool_calls` batch. -/
def processPart (p : Part) (thinking : Bool) (batch : List ToolCallOut) :
    List Event × Bool × List ToolCallOut :=
  if p.thought then
    ((if thinking then [] else [Event.thinking openThink]) ++
      [Event.thinking (p.text.getD "")], true, batch)
  else
    match p.text with
    | some t =>
        ((if thinking then [Event.thinking closeThink] else []) ++
          [Event.text t], false, batch)
    | none =>
        match p.functionCall with
        | some fc => ([], thinking, batch ++ [⟨fc.id, fc.name, fc.argsJson⟩])
        | none => ([], thinking, batch)

def processParts : List Part → Bool → List ToolCallOut →
    List Event × Bool × List ToolCallOut
  | [], th, b => ([], th, b)
  | p :: rest, th, b =>
    let r := processPart p th b
    let r2 := processParts rest r.2.1 r.2.2
    (r.1 ++ r2.1, r2.2)

/-- The source reads `data.get('response', {}).get('candidates', [{}])` and
then indexes `candidates[0]`; a missing candidate list therefore behaves as
one empty candidate, which `headD` reproduces.  (An explicitly empty
`candidates` array would raise in Python; no claim exercises that input.) -/
def emptyCandidate : Candidate := ⟨[], none⟩

/-- Processing of one streamed line, including the finish-gated flush of the
pending tool-call batch. -/
def processLine : Line → Bool → List ToolCallOut →
    List Event × Bool × List ToolCallOut
  | .noData, th, b => ([], th, b)
  | .badJson, th, b => ([], th, b)
  | .doc candidates, th, b =>
    let cand := candidates.headD emptyCandidate
    let r := processParts cand.parts th b
    if truthy cand.finishReason && !r.2.2.isEmpty then
      ((r.1 ++ (if r.2.1 then [Event.thinking closeThink] else []) ++
        [Event.tool_calls r.2.2]), false, [])
    else r

def streamLoop : List Line → Bool → List ToolCallOut → List Event
  | [], _, _ => []
  | l :: rest, th, b =>
    let r := processLine l th b
    r.1 ++ streamLoop rest r.2.1 r.2.2

/-- The whole stream: `thinking_started = False`, `tool_calls = []` at entry;
any batch still pending at stream end is dropped. -/
def generate_assistant_response (lines : List Line) : List Event :=
  streamLoop lines false []

/-! ## Message translation (`src/utils.py`)

The OpenAI-side conversation and the antigravity-side turn/part model.
`json.loads` success on a tool call's `arguments` string is abstracted by a
caller-supplied predicate `parse_ok`; on failure the raw string is wrapped
as the `query` fallback, exactly as the source does. -/

inductive Args where
  | obj (src : String)
  | query (raw : String)
deriving DecidableEq, Repr

inductive GPart where
  | text (t : String)
  | inlineData (mimeType : String) (data : String)
  | functionCall (id : String) (name : String) (args : Args)
  | functionResponse (id : String) (name : String) (output : String)
deriving DecidableEq, Repr

structure GMessage where
  role : String
  parts : List GPart
deriving DecidableEq, Repr

structure ToolCall where
  id : String
  name : String
  arguments : String
deriving DecidableEq, Repr

inductive ContentItem where
  | text (t : String)
  | image_url (url : String)
  | other
deriving DecidableEq, Repr

inductive Content where
  | str (s : String)
  | items (l : List ContentItem)
deriving DecidableEq, Repr

inductive OpenAIMessage where
  | user (content : Content)
  | system (content : Content)
  | assistant (content : Option String) (tool_calls : List ToolCall)
  | tool (tool_call_id : String) (content : String)
deriving DecidableEq, Repr

def isWordChar (c : Char) : Bool := c.isAlphanum || c = '_'

/-- The match of `^data:image/(\w+);base64,(.+)$` on an image URL, returning
the format and base64 groups.  `\w` is modelled as ASCII alphanumerics plus
underscore and `.` as any character except a newline; the `$`-before-a-final-
newline nuance of Python `re` is not modelled (no claim exercises it). -/
@[irreducible] def match_data_image (url : String) :
    Option (String × String) :=
  if url.startsWith "data:image/" then
    let rest := (url.drop 11).toList
    let fmt := rest.takeWhile isWordChar
    let after := rest.dropWhile isWordChar
    if fmt ≠ [] ∧ (String.mk after).startsWith ";base64," then
      let payload := after.drop 8
      if payload ≠ [] ∧ payload.all (· ≠ '\n') then
        some (String.mk fmt, String.mk payload)
      else none
    else none
  else none

structure Extracted where
  text : String
  images : List GPart
deriving DecidableEq, Repr

/-- Appending the `inlineData` part for one matched image URL (no-op when
the URL did not match the data-URI pattern). -/
def addImage (acc : Extracted) : Option (String × String) → Extracted
  | some (fmt, data) =>
      { acc with images :=
          acc.images ++ [GPart.inlineData ("image/" ++ fmt) data] }
  | none => acc

def extractItem (acc : Extracted) : ContentItem → Extracted
  | .text t => { acc with text := acc.text ++ t }
  | .image_url url => addImage acc (match_data_image url)
  | .other => acc

def extract_images_from_content : Content → Extracted
  | .str s => ⟨s, []⟩
  | .items l => l.foldl extractItem ⟨"", []⟩

def handle_user_message (extracted : Extracted) (msgs : List GMessage) :
    List GMessage :=
  msgs ++ [⟨"user", GPart.text extracted.text :: extracted.images⟩]

def toolCallToPart (parse_ok : String → Bool) (tc : ToolCall) : GPart :=
  .functionCall tc.id tc.name
    (if parse_ok tc.arguments then .obj tc.arguments else .query tc.arguments)

/-- `bool(message.get('content') and message['content'].strip())`. -/
def hasContent : Option String → Bool
  | some s => s.trim ≠ ""
  | none => false

def handle_assistant_message (parse_ok : String → Bool)
    (content : Option String) (tool_calls : List ToolCall)
    (msgs : List GMessage) : List GMessage :=
  let has_tool_calls : Bool := !tool_calls.isEmpty
  let antigravity_tools := tool_calls.map (toolCallToPart parse_ok)
  let newParts :=
    (match content with
     | some s => if s.trim ≠ "" then [GPart.text s] else []
     | none => []) ++ antigravity_tools
  let fresh := if newParts ≠ [] then msgs ++ [⟨"model", newParts⟩] else msgs
  match msgs.getLast? with
  | some last =>
      if last.role = "model" ∧ has_tool_calls ∧ hasContent content = false then
        msgs.dropLast ++ [⟨last.role, last.parts ++ antigravity_tools⟩]
      else fresh
  | none => fresh

def isFunctionResponse : GPart → Bool
  | .functionResponse _ _ _ => true
  | _ => false

/-- Scan of one turn's parts for the first `functionCall` part whose id
matches; returns its name (the inner `break` in the source stops at the
first match even when its name is empty). -/
def findNameInParts (tcid : String) : List GPart → Option String
  | [] => none
  | GPart.functionCall id name _ :: rest =>
      if id = tcid then some name else findNameInParts tcid rest
  | _ :: rest => findNameInParts tcid rest

/-- Backward scan over the accumulated turns (most recent first): a `model`
turn whose first matching `functionCall` has a non-empty name settles the
search; an empty or absent name lets the scan continue (`if function_name:
break`). -/
def findFunctionName (tcid : String) : List GMessage → String
  | [] => ""
  | m :: rest =>
      if m.role = "model" then
        match findNameInParts tcid m.parts with
        | some n => if n ≠ "" then n else findFunctionName tcid rest
        | none => findFunctionName tcid rest
      else findFunctionName tcid rest

def handle_tool_call (tool_call_id content : String)
    (msgs : List GMessage) : List GMessage :=
  let function_name := findFunctionName tool_call_id msgs.reverse
  let fr := GPart.functionResponse tool_call_id function_name content
  match msgs.getLast? with
  | some last =>
      if last.role = "user" ∧ last.parts.any isFunctionResponse then
        msgs.dropLast ++ [⟨last.role, last.parts ++ [fr]⟩]
      else msgs ++ [⟨"user", [fr]⟩]
  | none => msgs ++ [⟨"user", [fr]⟩]

def translateStep (parse_ok : String → Bool) (msgs : List GMessage) :
    OpenAIMessage → List GMessage
  | .user c => handle_user_message (extract_images_from_content c) msgs
  | .system c => handle_user_message (extract_images_from_content c) msgs
  | .assistant content tool_calls =>
      handle_assistant_message parse_ok content tool_calls msgs
  | .tool id content => handle_tool_call id content msgs

def openai_message_to_antigravity (parse_ok : String → Bool)
    (openai_messages : List OpenAIMessage) : List GMessage :=
  openai_messages.foldl (translateStep parse_ok) []

/-! ## Request id (`src/utils.py`, `generate_request_id`)

The source returns the f-string `f"req_{{uuid.uuid4().hex}}"`.  Doubled
braces in an f-string are escapes, so no interpolation happens and every
call returns the same literal string; the call is modelled as a function of
a unit argument standing for one invocation. -/

def generate_request_id : Unit → String :=
  fun _ => "req_\x7buuid.uuid4().hex\x7d"

/-! ## Credential rotation (`src/token_manager.py`, `TokenManager.get_token`)

One account record carries the fields the rotation logic reads;
`account.get('timestamp', 0)` / `account.get('expires_in', 0)` defaults are
absorbed into the integer fields, `account.get('disabled')` truthiness into
a `Bool`.  The network refresh (`_refresh_token`) is abstracted as an oracle
`refreshF : Account → Option Account`; `none` is a refresh failure, which
leaves the record untouched.  `time.time()` is the integer `now`. -/

structure Account where
  access_token : String
  refresh_token : Option String
  expires_in : Int
  timestamp : Int
  disabled : Bool
deriving DecidableEq, Repr

def dummyAccount : Account := ⟨"", none, 0, 0, false⟩

/-- `(account.get('timestamp', 0) + account.get('expires_in', 0) - 60) < time.time()`. -/
def isExpired (a : Account) (now : Int) : Bool :=
  a.timestamp + a.expires_in - 60 < now

/-- Result of one `get_token` call: the returned token (if any), the account
list as persisted afterwards, and `self.current_token_index` afterwards. -/
structure TMResult where
  token : Option Account
  accounts : List Account
  cursor : Nat
deriving DecidableEq, Repr

/-- The `for i in range(num_accounts)` scan, with `fuel` the remaining
iterations and `i` the current offset from the starting cursor. -/
def getTokenLoop (refreshF : Account → Option Account) (now : Int)
    (accounts : List Account) (start : Nat) : Nat → Nat → TMResult
  | _, 0 => ⟨none, accounts, start⟩
  | i, fuel + 1 =>
    let n := accounts.length
    let index := (start + i) % n
    let account := accounts.getD index dummyAccount
    if account.disabled then
      getTokenLoop refreshF now accounts start (i + 1) fuel
    else if isExpired account now then
      match refreshF account with
      | some refreshed =>
          ⟨some refreshed, accounts.set index refreshed, (index + 1) % n⟩
      | none => getTokenLoop refreshF now accounts start (i + 1) fuel
    else ⟨some account, accounts, (index + 1) % n⟩

def get_token (refreshF : Account → Option Account) (now : Int)
    (accounts : List Account) (cursor : Nat) : TMResult :=
  if accounts.isEmpty then ⟨none, accounts, cursor⟩
  else getTokenLoop refreshF now accounts cursor 0 accounts.length

/-- `k` consecutive `get_token` calls, each seeing the account list and
cursor the previous call left behind. -/
def getTokenTrace (refreshF : Account → Option Account) (now : Int) :
    Nat → List Account → Nat → List TMResult
  | 0, _, _ => []
  | k + 1, accounts, cursor =>
    let r := get_token refreshF now accounts cursor
    r :: getTokenTrace refreshF now k r.accounts r.cursor

/-- A credential is unusable in one scan when it is disabled, or expired with
the refresh attempt failing. -/
def unusable (refreshF : Account → Option Account) (now : Int) (a : Account) :
    Prop :=
  a.disabled = true ∨ (isExpired a now = true ∧ refreshF a = none)

instance (refreshF : Account → Option Account) (now : Int) (a : Account) :
    Decidable (unusable refreshF now a) := by
  unfold unusable; infer_instance

/-- A concrete two-credential pool of valid (non-disabled, non-expired at
`now = 100`) accounts, used to instantiate universally quantified theorems. -/
def wPool : List Account :=
  [⟨"a1", none, 10000, 0, false⟩, ⟨"a2", none, 10000, 0, false⟩]

/-- A pool whose first credential is expired (and unrefreshable under a
failing refresh oracle) while the second is valid at `now = 100`: the scan
fails on the first candidate and succeeds on the second. -/
def wPool2 : List Account :=
  [⟨"bad", none, 30, 0, false⟩, ⟨"good", none, 10000, 0, false⟩]

/-- Is this part a `functionCall` part whose id matches? -/
def isCallWithId (tcid : String) : GPart → Bool
  | .functionCall id _ _ => id = tcid
  | _ => false

/-- The name carried by a `functionCall` part (empty for other parts). -/
def callName : GPart → String
  | .functionCall _ n _ => n
  | _ => ""

/-- The last part of the last turn of a translated conversation. -/
def lastPartOf (msgs : List GMessage) : Option GPart :=
  msgs.getLast?.bind (fun m => m.parts.getLast?)

/-- Invariant of the translator's output: a `user`-role turn that holds any
`functionResponse` part holds only `functionResponse` parts. -/
def userFROnly (msgs : List GMessage) : Prop :=
  ∀ m ∈ msgs, m.role = "user" → m.parts.any isFunctionResponse = true →
    ∀ p ∈ m.parts, isFunctionResponse p = true

/-! ## Claims about the stream reassembler -/

/-- Claim C1: for the input document sequence `[{thought:"a"}]`, `[{text:"b"}]`,
`[{functionCall:{name:"f"}}, finish]`, the reassembler emits exactly the
thinking span-open marker, `ThinkingDelta("a")`, the span-close marker,
`TextDelta("b")`, and `ToolCallBatch([f])`, in that order and nothing else. -/
theorem stream_reassembly_example :
    generate_assistant_response
      [Line.doc [⟨[⟨true, some "a", none⟩], none⟩],
       Line.doc [⟨[⟨false, some "b", none⟩], none⟩],
       Line.doc [⟨[⟨false, none, some ⟨none, some "f", "\x7b\x7d"⟩⟩], some "STOP"⟩]] =
      [Event.thinking openThink, Event.thinking "a", Event.thinking closeThink,
       Event.text "b", Event.tool_calls [⟨none, some "f", "\x7b\x7d"⟩]] := by
  rfl

/-- Claim C9: a stream with one unparsable payload line between two valid
payload lines yields exactly the events of the two valid lines, in order;
the malformed line is skipped and processing continues. -/
theorem malformed_line_resilience (c1 c2 : List Candidate) :
    generate_assistant_response [Line.doc c1, Line.badJson, Line.doc c2] =
      generate_assistant_response [Line.doc c1, Line.doc c2] := by
  simp [generate_assistant_response, streamLoop, processLine]

/-! ## Claim about the request-id generator -/

/-- Claim C4 (refuted — code bug): the generator is supposed to return a
fresh unique id per call, but the escaped f-string braces mean every call
returns the same literal string. -/
theorem generate_request_id_constant (a b : Unit) :
    generate_request_id a = generate_request_id b := rfl

/-! ## Claims about credential rotation -/

/-- Claim C6: a credential whose remaining lifetime is 59 seconds is treated
as expired (refresh is attempted, and its outcome decides the call), one
whose remaining lifetime is 61 seconds is valid and returned without
refresh; the check is `isExpired = (issuedAt + expiresInSeconds - 60) < now`. -/
theorem expiry_buffer (a : Account) (now : Int)
    (refreshF : Account → Option Account) (r : Account) :
    (a.timestamp + a.expires_in - now = 59 → isExpired a now = true) ∧
    (a.timestamp + a.expires_in - now = 61 → isExpired a now = false) ∧
    (isExpired a now = decide (a.timestamp + a.expires_in - 60 < now)) ∧
    (a.disabled = false → a.timestamp + a.expires_in - now = 61 →
      get_token refreshF now [a] 0 = ⟨some a, [a], 0⟩) ∧
    (a.disabled = false → a.timestamp + a.expires_in - now = 59 →
      get_token (fun _ => some r) now [a] 0 = ⟨some r, [r], 0⟩ ∧
      get_token (fun _ => none) now [a] 0 = ⟨none, [a], 0⟩) := by
  refine ⟨?_, ?_, rfl, ?_, ?_⟩
  · intro h
    simp only [isExpired, decide_eq_true_eq]
    omega
  · intro h
    simp only [isExpired, decide_eq_false_iff_not, not_lt]
    omega
  · intro hdis h
    have hex : isExpired a now = false := by
      simp only [isExpired, decide_eq_false_iff_not, not_lt]
      omega
    simp [get_token, getTokenLoop, hdis, hex, List.getD]
  · intro hdis h
    have hex : isExpired a now = true := by
      simp only [isExpired, decide_eq_true_eq]
      omega
    constructor <;> simp [get_token, getTokenLoop, hdis, hex, List.getD]

theorem getTokenLoop_return_valid (refreshF : Account → Option Account)
    (now : Int) (accounts : List Account) (start i fuel : Nat) (hf : 0 < fuel)
    (hdis : (accounts.getD ((start + i) % accounts.length)
      dummyAccount).disabled = false)
    (hexp : isExpired (accounts.getD ((start + i) % accounts.length)
      dummyAccount) now = false) :
    getTokenLoop refreshF now accounts start i fuel =
      ⟨some (accounts.getD ((start + i) % accounts.length) dummyAccount),
        accounts, ((start + i) % accounts.length + 1) % accounts.length⟩ := by
  obtain ⟨f, rfl⟩ : ∃ f, fuel = f + 1 := ⟨fuel - 1, by omega⟩
  simp only [List.getD_eq_getElem?_getD] at hdis hexp
  simp [getTokenLoop, hdis, hexp]

theorem getTokenLoop_skip (refreshF : Account → Option Account) (now : Int)
    (accounts : List Account) (start i fuel : Nat)
    (hP : unusable refreshF now
      (accounts.getD ((start + i) % accounts.length) dummyAccount)) :
    getTokenLoop refreshF now accounts start i (fuel + 1) =
      getTokenLoop refreshF now accounts start (i + 1) fuel := by
  rcases hP with h | ⟨h1, h2⟩
  · simp only [List.getD_eq_getElem?_getD] at h
    simp [getTokenLoop, h]
  · by_cases hd :
      (accounts.getD ((start + i) % accounts.length) dummyAccount).disabled = true
    · simp only [List.getD_eq_getElem?_getD] at hd
      simp [getTokenLoop, hd]
    · simp only [List.getD_eq_getElem?_getD] at hd h1 h2
      simp [getTokenLoop, hd, h1, h2]

theorem getTokenLoop_all_unusable (refreshF : Account → Option Account)
    (now : Int) (accounts : List Account) (start : Nat) :
    ∀ fuel i, (∀ k, k < fuel → unusable refreshF now
        (accounts.getD ((start + i + k) % accounts.length) dummyAccount)) →
      getTokenLoop refreshF now accounts start i fuel =
        ⟨none, accounts, start⟩ := by
  intro fuel
  induction fuel with
  | zero => intro i _; rfl
  | succ f ih =>
    intro i hk
    have h0 := hk 0 (by omega)
    rw [getTokenLoop_skip refreshF now accounts start i f (by simpa using h0)]
    refine ih (i + 1) (fun k hkf => ?_)
    have harg : start + (i + 1) + k = start + i + (k + 1) := by omega
    rw [harg]
    exact hk (k + 1) (by omega)

theorem getTokenLoop_none_inv (refreshF : Account → Option Account)
    (now : Int) (accounts : List Account) (start : Nat) :
    ∀ fuel i,
      (getTokenLoop refreshF now accounts start i fuel).token = none →
      getTokenLoop refreshF now accounts start i fuel =
          ⟨none, accounts, start⟩ ∧
        ∀ k, k < fuel → unusable refreshF now
          (accounts.getD ((start + i + k) % accounts.length) dummyAccount) := by
  intro fuel
  induction fuel with
  | zero => intro i _; exact ⟨rfl, fun k hk => absurd hk (by omega)⟩
  | succ f ih =>
    intro i h
    by_cases hd :
      (accounts.getD ((start + i) % accounts.length) dummyAccount).disabled = true
    · have hskip := getTokenLoop_skip refreshF now accounts start i f (Or.inl hd)
      rw [hskip] at h ⊢
      obtain ⟨heq, hks⟩ := ih (i + 1) h
      refine ⟨heq, fun k hkk => ?_⟩
      cases k with
      | zero =>
        have harg : start + i + 0 = start + i := by omega
        rw [harg]
        exact Or.inl hd
      | succ k' =>
        have harg : start + i + (k' + 1) = start + (i + 1) + k' := by omega
        rw [harg]
        exact hks k' (by omega)
    · have hd' : (accounts.getD ((start + i) % accounts.length)
          dummyAccount).disabled = false := by
        simpa using hd
      by_cases he : isExpired
          (accounts.getD ((start + i) % accounts.length) dummyAccount) now = true
      · cases hr : refreshF
            (accounts.getD ((start + i) % accounts.length) dummyAccount) with
        | some r =>
          exfalso
          have hret : (getTokenLoop refreshF now accounts start i
              (f + 1)).token = some r := by
            have hd2 := hd'
            have he2 := he
            have hr2 := hr
            simp only [List.getD_eq_getElem?_getD] at hd2 he2 hr2
            simp [getTokenLoop, hd2, he2, hr2]
          rw [hret] at h
          simp at h
        | none =>
          have hskip := getTokenLoop_skip refreshF now accounts start i f
            (Or.inr ⟨he, hr⟩)
          rw [hskip] at h ⊢
          obtain ⟨heq, hks⟩ := ih (i + 1) h
          refine ⟨heq, fun k hkk => ?_⟩
          cases k with
          | zero =>
            have harg : start + i + 0 = start + i := by omega
            rw [harg]
            exact Or.inr ⟨he, hr⟩
          | succ k' =>
            have harg : start + i + (k' + 1) = start + (i + 1) + k' := by omega
            rw [harg]
            exact hks k' (by omega)
      · exfalso
        have hret := getTokenLoop_return_valid refreshF now accounts start i
          (f + 1) (by omega) hd' (by simpa using he)
        rw [hret] at h
        simp at h

theorem getTokenLoop_return_refreshed (refreshF : Account → Option Account)
    (now : Int) (accounts : List Account) (start i fuel : Nat) (hf : 0 < fuel)
    (r : Account)
    (hdis : (accounts.getD ((start + i) % accounts.length)
      dummyAccount).disabled = false)
    (hexp : isExpired (accounts.getD ((start + i) % accounts.length)
      dummyAccount) now = true)
    (hr : refreshF (accounts.getD ((start + i) % accounts.length)
      dummyAccount) = some r) :
    getTokenLoop refreshF now accounts start i fuel =
      ⟨some r, accounts.set ((start + i) % accounts.length) r,
        ((start + i) % accounts.length + 1) % accounts.length⟩ := by
  obtain ⟨f, rfl⟩ : ∃ f, fuel = f + 1 := ⟨fuel - 1, by omega⟩
  simp only [List.getD_eq_getElem?_getD] at hdis hexp hr
  simp [getTokenLoop, hdis, hexp, hr]

theorem getTokenLoop_some_inv (refreshF : Account → Option Account)
    (now : Int) (accounts : List Account) (start : Nat) :
    ∀ fuel i r,
      (getTokenLoop refreshF now accounts start i fuel).token = some r →
      ∃ k, k < fuel ∧
        (∀ k', k' < k → unusable refreshF now
          (accounts.getD ((start + i + k') % accounts.length) dummyAccount)) ∧
        (accounts.getD ((start + i + k) % accounts.length)
          dummyAccount).disabled = false ∧
        ((isExpired (accounts.getD ((start + i + k) % accounts.length)
            dummyAccount) now = false ∧
          r = accounts.getD ((start + i + k) % accounts.length) dummyAccount ∧
          getTokenLoop refreshF now accounts start i fuel =
            ⟨some r, accounts,
              ((start + i + k) % accounts.length + 1) % accounts.length⟩) ∨
         (isExpired (accounts.getD ((start + i + k) % accounts.length)
            dummyAccount) now = true ∧
          refreshF (accounts.getD ((start + i + k) % accounts.length)
            dummyAccount) = some r ∧
          getTokenLoop refreshF now accounts start i fuel =
            ⟨some r,
              accounts.set ((start + i + k) % accounts.length) r,
              ((start + i + k) % accounts.length + 1) % accounts.length⟩)) := by
  intro fuel
  induction fuel with
  | zero =>
    intro i r h
    simp [getTokenLoop] at h
  | succ f ih =>
    intro i r h
    by_cases hd :
      (accounts.getD ((start + i) % accounts.length) dummyAccount).disabled = true
    · have hskip := getTokenLoop_skip refreshF now accounts start i f (Or.inl hd)
      rw [hskip] at h
      obtain ⟨k, hk, hpre, hdis, hcase⟩ := ih (i + 1) r h
      refine ⟨k + 1, by omega, ?_, ?_, ?_⟩
      · intro k' hk'
        cases k' with
        | zero =>
          have harg : start + i + 0 = start + i := by omega
          rw [harg]
          exact Or.inl hd
        | succ y =>
          have harg : start + i + (y + 1) = start + (i + 1) + y := by omega
          rw [harg]
          exact hpre y (by omega)
      · have harg : start + i + (k + 1) = start + (i + 1) + k := by omega
        rw [harg]
        exact hdis
      · have harg : start + i + (k + 1) = start + (i + 1) + k := by omega
        rw [harg, hskip]
        exact hcase
    · have hd' : (accounts.getD ((start + i) % accounts.length)
          dummyAccount).disabled = false := by simpa using hd
      by_cases he : isExpired
          (accounts.getD ((start + i) % accounts.length) dummyAccount) now = true
      · cases hrf : refreshF
            (accounts.getD ((start + i) % accounts.length) dummyAccount) with
        | none =>
          have hskip := getTokenLoop_skip refreshF now accounts start i f
            (Or.inr ⟨he, hrf⟩)
          rw [hskip] at h
          obtain ⟨k, hk, hpre, hdis, hcase⟩ := ih (i + 1) r h
          refine ⟨k + 1, by omega, ?_, ?_, ?_⟩
          · intro k' hk'
            cases k' with
            | zero =>
              have harg : start + i + 0 = start + i := by omega
              rw [harg]
              exact Or.inr ⟨he, hrf⟩
            | succ y =>
              have harg : start + i + (y + 1) = start + (i + 1) + y := by omega
              rw [harg]
              exact hpre y (by omega)
          · have harg : start + i + (k + 1) = start + (i + 1) + k := by omega
            rw [harg]
            exact hdis
          · have harg : start + i + (k + 1) = start + (i + 1) + k := by omega
            rw [harg, hskip]
            exact hcase
        | some r' =>
          have hret := getTokenLoop_return_refreshed refreshF now accounts
            start i (f + 1) (by omega) r' hd' he hrf
          rw [hret] at h
          have hrr : r' = r := by simpa using h
          subst hrr
          have harg : start + i + 0 = start + i := by omega
          refine ⟨0, by omega, fun k' hk' => absurd hk' (by omega), ?_, ?_⟩
          · rw [harg]
            exact hd'
          · rw [harg]
            exact Or.inr ⟨he, hrf, hret⟩
      · have he' : isExpired
            (accounts.getD ((start + i) % accounts.length) dummyAccount) now =
            false := by simpa using he
        have hret := getTokenLoop_return_valid refreshF now accounts start i
          (f + 1) (by omega) hd' he'
        rw [hret] at h
        have hra : accounts.getD ((start + i) % accounts.length) dummyAccount =
            r := by simpa using h
        have harg : start + i + 0 = start + i := by omega
        refine ⟨0, by omega, fun k' hk' => absurd hk' (by omega), ?_, ?_⟩
        · rw [harg]
          exact hd'
        · rw [harg]
          refine Or.inl ⟨he', hra.symm, ?_⟩
          rw [hret, hra]

/-- On a successful `get_token` call the returned token is the first usable
candidate in rotation order: every candidate scanned before it is unusable,
and the pool is returned either unchanged (the candidate was valid) or with
exactly that candidate's slot overwritten by its refreshed record. -/
theorem get_token_some_shape (refreshF : Account → Option Account) (now : Int)
    (accounts : List Account) (c : Nat) (r : Account)
    (hr : (get_token refreshF now accounts c).token = some r) :
    ∃ k, k < accounts.length ∧
      (∀ k', k' < k → unusable refreshF now
        (accounts.getD ((c + k') % accounts.length) dummyAccount)) ∧
      (accounts.getD ((c + k) % accounts.length) dummyAccount).disabled =
        false ∧
      ((isExpired (accounts.getD ((c + k) % accounts.length) dummyAccount)
          now = false ∧
        r = accounts.getD ((c + k) % accounts.length) dummyAccount ∧
        get_token refreshF now accounts c =
          ⟨some r, accounts, ((c + k) % accounts.length + 1) %
            accounts.length⟩) ∨
       (isExpired (accounts.getD ((c + k) % accounts.length) dummyAccount)
          now = true ∧
        refreshF (accounts.getD ((c + k) % accounts.length) dummyAccount) =
          some r ∧
        get_token refreshF now accounts c =
          ⟨some r, accounts.set ((c + k) % accounts.length) r,
            ((c + k) % accounts.length + 1) % accounts.length⟩)) := by
  by_cases hemp : accounts = []
  · subst hemp
    simp [get_token] at hr
  · have hne : accounts.isEmpty = false := by simp [List.isEmpty_iff, hemp]
    have hgt : get_token refreshF now accounts c =
        getTokenLoop refreshF now accounts c 0 accounts.length := by
      simp [get_token, hne]
    rw [hgt] at hr
    obtain ⟨k, hk, hpre, hdis, hcase⟩ :=
      getTokenLoop_some_inv refreshF now accounts c accounts.length 0 r hr
    have harg : c + 0 + k = c + k := by omega
    refine ⟨k, hk, ?_, ?_, ?_⟩
    · intro k' hk'
      have hp := hpre k' hk'
      have harg' : c + 0 + k' = c + k' := by omega
      rw [harg'] at hp
      exact hp
    · rw [harg] at hdis
      exact hdis
    · rw [harg] at hcase
      rw [hgt]
      exact hcase

theorem mod_shift_coverage (c j n : Nat) (hn : 0 < n) (hj : j < n) :
    ∃ k, k < n ∧ (c + k) % n = j := by
  have hr : c % n < n := Nat.mod_lt c hn
  rcases le_or_lt (c % n) j with h | h
  · refine ⟨j - c % n, by omega, ?_⟩
    rw [← Nat.mod_add_mod]
    have harg : c % n + (j - c % n) = j := by omega
    rw [harg, Nat.mod_eq_of_lt hj]
  · refine ⟨j + n - c % n, by omega, ?_⟩
    rw [← Nat.mod_add_mod]
    have harg : c % n + (j + n - c % n) = j + n := by omega
    rw [harg, Nat.add_mod_right, Nat.mod_eq_of_lt hj]

/-- Claim C7: a credential whose refresh fails is neither disabled nor
removed, and its record is untouched: the pool keeps its length, every
unusable credential (disabled, or expired with failing refresh) keeps its
exact record in the returned pool — also when a later candidate succeeds —
the scan continues past failed candidates so that a returned token is the
first usable candidate in rotation order, no token is returned exactly when
every candidate is disabled or expired-and-unrefreshable (vacuously for the
empty pool), and in that case the pool and the cursor are untouched. -/
theorem refresh_isolation (refreshF : Account → Option Account) (now : Int)
    (accounts : List Account) (c : Nat) :
    ((get_token refreshF now accounts c).accounts.length =
      accounts.length) ∧
    (∀ j, j < accounts.length →
      unusable refreshF now (accounts.getD j dummyAccount) →
      (get_token refreshF now accounts c).accounts.getD j dummyAccount =
        accounts.getD j dummyAccount) ∧
    (∀ r, (get_token refreshF now accounts c).token = some r →
      ∃ k, k < accounts.length ∧
        (∀ k', k' < k → unusable refreshF now
          (accounts.getD ((c + k') % accounts.length) dummyAccount)) ∧
        (accounts.getD ((c + k) % accounts.length) dummyAccount).disabled =
          false ∧
        ((isExpired (accounts.getD ((c + k) % accounts.length) dummyAccount)
            now = false ∧
          r = accounts.getD ((c + k) % accounts.length) dummyAccount ∧
          (get_token refreshF now accounts c).accounts = accounts) ∨
         (isExpired (accounts.getD ((c + k) % accounts.length) dummyAccount)
            now = true ∧
          refreshF (accounts.getD ((c + k) % accounts.length) dummyAccount) =
            some r ∧
          (get_token refreshF now accounts c).accounts =
            accounts.set ((c + k) % accounts.length) r))) ∧
    ((get_token refreshF now accounts c).token = none ↔
      ∀ a ∈ accounts, unusable refreshF now a) ∧
    ((get_token refreshF now accounts c).token = none →
      (get_token refreshF now accounts c).accounts = accounts ∧
      (get_token refreshF now accounts c).cursor = c) := by
  have hnone_unch : (get_token refreshF now accounts c).token = none →
      (get_token refreshF now accounts c).accounts = accounts ∧
      (get_token refreshF now accounts c).cursor = c := by
    by_cases hemp : accounts = []
    · subst hemp
      simp [get_token]
    · have hne : accounts.isEmpty = false := by simp [List.isEmpty_iff, hemp]
      have hgt : get_token refreshF now accounts c =
          getTokenLoop refreshF now accounts c 0 accounts.length := by
        simp [get_token, hne]
      intro h
      rw [hgt] at h ⊢
      obtain ⟨heq, _⟩ :=
        getTokenLoop_none_inv refreshF now accounts c accounts.length 0 h
      rw [heq]
      exact ⟨rfl, rfl⟩
  have hnone_iff : (get_token refreshF now accounts c).token = none ↔
      ∀ a ∈ accounts, unusable refreshF now a := by
    by_cases hemp : accounts = []
    · subst hemp
      simp [get_token]
    · have hne : accounts.isEmpty = false := by simp [List.isEmpty_iff, hemp]
      have hlen : 0 < accounts.length := List.length_pos.mpr hemp
      have hgt : get_token refreshF now accounts c =
          getTokenLoop refreshF now accounts c 0 accounts.length := by
        simp [get_token, hne]
      constructor
      · intro h
        rw [hgt] at h
        obtain ⟨_, hks⟩ :=
          getTokenLoop_none_inv refreshF now accounts c accounts.length 0 h
        intro a ha
        obtain ⟨j, hj, hja⟩ := List.mem_iff_getElem.mp ha
        obtain ⟨k, hk, hck⟩ := mod_shift_coverage c j accounts.length hlen hj
        have hu := hks k hk
        have harg : (c + 0 + k) % accounts.length = j := by
          simpa using hck
        rw [harg, List.getD_eq_getElem accounts dummyAccount hj, hja] at hu
        exact hu
      · intro hall
        rw [hgt]
        have hks : ∀ k, k < accounts.length → unusable refreshF now
            (accounts.getD ((c + 0 + k) % accounts.length) dummyAccount) := by
          intro k hk
          have hidx : (c + 0 + k) % accounts.length < accounts.length :=
            Nat.mod_lt _ hlen
          rw [List.getD_eq_getElem accounts dummyAccount hidx]
          exact hall _ (List.getElem_mem hidx)
        rw [getTokenLoop_all_unusable refreshF now accounts c
          accounts.length 0 hks]
  refine ⟨?_, ?_, ?_, hnone_iff, hnone_unch⟩
  · cases htok : (get_token refreshF now accounts c).token with
    | none => rw [(hnone_unch htok).1]
    | some r =>
      obtain ⟨k, _, _, _, hcase⟩ :=
        get_token_some_shape refreshF now accounts c r htok
      rcases hcase with ⟨_, _, heq⟩ | ⟨_, _, heq⟩
      · rw [heq]
      · rw [heq]
        simp
  · intro j hj hun
    cases htok : (get_token refreshF now accounts c).token with
    | none => rw [(hnone_unch htok).1]
    | some r =>
      obtain ⟨k, _, _, hdis, hcase⟩ :=
        get_token_some_shape refreshF now accounts c r htok
      rcases hcase with ⟨_, _, heq⟩ | ⟨_, hrf, heq⟩
      · rw [heq]
      · rw [heq]
        by_cases hji : j = (c + k) % accounts.length
        · exfalso
          rw [hji] at hun
          rcases hun with hdt | ⟨_, hrn⟩
          · rw [hdis] at hdt
            exact Bool.false_ne_true hdt
          · rw [hrf] at hrn
            exact Option.noConfusion hrn
        · have hjlen : j < (accounts.set ((c + k) % accounts.length) r).length := by
            rw [List.length_set]
            exact hj
          rw [List.getD_eq_getElem _ _ hjlen,
            List.getD_eq_getElem accounts dummyAccount hj]
          exact List.getElem_set_ne (fun hx => hji hx.symm) _
  · intro r htok
    obtain ⟨k, hk, hpre, hdis, hcase⟩ :=
      get_token_some_shape refreshF now accounts c r htok
    refine ⟨k, hk, hpre, hdis, ?_⟩
    rcases hcase with ⟨h1, h2, heq⟩ | ⟨h1, h2, heq⟩
    · exact Or.inl ⟨h1, h2, by rw [heq]⟩
    · exact Or.inr ⟨h1, h2, by rw [heq]⟩

/-- Witness for C7 on the mixed pool: the first credential's refresh fails,
the second is returned, yet the failed credential's record in the returned
pool is exactly its input record; the no-token characterization is
instantiated on the same pool. -/
theorem refresh_isolation_witness :
    (get_token (fun _ => none) 100 wPool2 0).accounts.getD 0 dummyAccount =
        wPool2.getD 0 dummyAccount ∧
    ((get_token (fun _ => none) 100 wPool2 0).token = none ↔
      ∀ a ∈ wPool2, unusable (fun _ => none) 100 a) :=
  ⟨(refresh_isolation (fun _ => none) 100 wPool2 0).2.1 0 (by decide)
      (by decide),
   (refresh_isolation (fun _ => none) 100 wPool2 0).2.2.2.1⟩

theorem get_token_valid (refreshF : Account → Option Account) (now : Int)
    (accounts : List Account) (c : Nat) (h : accounts ≠ [])
    (hdis : (accounts.getD (c % accounts.length) dummyAccount).disabled = false)
    (hexp : isExpired (accounts.getD (c % accounts.length) dummyAccount) now =
      false) :
    get_token refreshF now accounts c =
      ⟨some (accounts.getD (c % accounts.length) dummyAccount), accounts,
        (c + 1) % accounts.length⟩ := by
  have hne : accounts.isEmpty = false := by simp [List.isEmpty_iff, h]
  have hlen : 0 < accounts.length := List.length_pos.mpr h
  have hstep := getTokenLoop_return_valid refreshF now accounts c 0
    accounts.length (by omega) (by simpa using hdis) (by simpa using hexp)
  unfold get_token
  rw [hne]
  simp only [Bool.false_eq_true, if_false]
  rw [hstep]
  have harg : (c + 0) % accounts.length = c % accounts.length := by
    simp
  rw [harg, Nat.mod_add_mod]

theorem getTokenTrace_all_valid (refreshF : Account → Option Account)
    (now : Int) (accounts : List Account) (h : accounts ≠ [])
    (hval : ∀ a ∈ accounts, a.disabled = false ∧ isExpired a now = false) :
    ∀ k c, getTokenTrace refreshF now k accounts c =
      (List.range k).map (fun j =>
        ⟨some (accounts.getD ((c + j) % accounts.length) dummyAccount),
          accounts, (c + j + 1) % accounts.length⟩) := by
  have hlen : 0 < accounts.length := List.length_pos.mpr h
  intro k
  induction k with
  | zero => intro c; simp [getTokenTrace]
  | succ k ih =>
    intro c
    have hidx : c % accounts.length < accounts.length := Nat.mod_lt c hlen
    have hd : (accounts.getD (c % accounts.length) dummyAccount).disabled =
        false := by
      rw [List.getD_eq_getElem accounts dummyAccount hidx]
      exact (hval _ (List.getElem_mem hidx)).1
    have he : isExpired (accounts.getD (c % accounts.length) dummyAccount)
        now = false := by
      rw [List.getD_eq_getElem accounts dummyAccount hidx]
      exact (hval _ (List.getElem_mem hidx)).2
    have hcall := get_token_valid refreshF now accounts c h hd he
    simp only [getTokenTrace]
    rw [hcall]
    rw [ih ((c + 1) % accounts.length)]
    rw [List.range_succ_eq_map]
    simp only [List.map_cons, List.map_map]
    refine List.cons_eq_cons.mpr ⟨?_, ?_⟩
    · simp [Nat.mod_add_mod]
    · apply List.map_congr_left
      intro j _
      have h1 : ((c + 1) % accounts.length + j) % accounts.length =
          (c + (j + 1)) % accounts.length := by
        rw [Nat.mod_add_mod]
        congr 1
        omega
      have h2 : ((c + 1) % accounts.length + j + 1) % accounts.length =
          (c + (j + 1) + 1) % accounts.length := by
        rw [Nat.add_assoc, Nat.mod_add_mod]
        congr 1
        omega
      simp only [Function.comp_apply]
      rw [h1, h2]

theorem drop_append_take_eq (accounts : List Account) (c : Nat)
    (hc : c ≤ accounts.length) :
    accounts.drop c ++ accounts.take c =
      (List.range accounts.length).map
        (fun j => accounts.getD ((c + j) % accounts.length) dummyAccount) := by
  apply List.ext_getElem
  · simp
    omega
  · intro i h1 h2
    simp only [List.getElem_map, List.getElem_range]
    have hlen : i < accounts.length := by
      simpa using h2
    by_cases hi : i < accounts.length - c
    · have hdl : i < (accounts.drop c).length := by
        simp
        omega
      rw [List.getElem_append_left hdl, List.getElem_drop]
      have hlt : c + i < accounts.length := by omega
      rw [Nat.mod_eq_of_lt hlt, List.getD_eq_getElem accounts dummyAccount hlt]
    · have hge : accounts.length ≤ c + i := by omega
      have hlt2 : c + i - accounts.length < accounts.length := by omega
      rw [Nat.mod_eq_sub_mod hge, Nat.mod_eq_of_lt hlt2,
        List.getD_eq_getElem accounts dummyAccount hlt2]
      have hdl : (accounts.drop c).length ≤ i := by
        simp
        omega
      rw [List.getElem_append_right hdl, List.getElem_take]
      congr 1
      simp
      omega

/-- Claim C2: for a pool of non-disabled, non-expired credentials and a
starting cursor `c` inside the pool, `N = accounts.length` consecutive
`get_token` calls return each credential exactly once, in rotation order
starting at the cursor, and the `j`-th call leaves the cursor one past the
index it returned (modulo `N`). -/
theorem rotation_fairness (refreshF : Account → Option Account) (now : Int)
    (accounts : List Account) (c : Nat) (h : accounts ≠ [])
    (hval : ∀ a ∈ accounts, a.disabled = false ∧ isExpired a now = false)
    (hc : c < accounts.length) :
    ((getTokenTrace refreshF now accounts.length accounts c).map
        TMResult.token = (accounts.drop c ++ accounts.take c).map some) ∧
    ((getTokenTrace refreshF now accounts.length accounts c).map
        TMResult.token).Perm (accounts.map some) ∧
    (∀ j, j < accounts.length →
      ((getTokenTrace refreshF now accounts.length accounts c).getD j
        ⟨none, [], 0⟩).cursor = (c + j + 1) % accounts.length) := by
  have htr := getTokenTrace_all_valid refreshF now accounts h hval
    accounts.length c
  have hmap : (getTokenTrace refreshF now accounts.length accounts c).map
      TMResult.token = (accounts.drop c ++ accounts.take c).map some := by
    rw [htr, drop_append_take_eq accounts c (le_of_lt hc), List.map_map,
      List.map_map]
    rfl
  refine ⟨hmap, ?_, ?_⟩
  · rw [hmap]
    refine List.Perm.map some ?_
    have hp := @List.perm_append_comm Account (accounts.drop c)
      (accounts.take c)
    rwa [List.take_append_drop] at hp
  · intro j hj
    rw [htr]
    have hjlen : j < ((List.range accounts.length).map (fun j =>
        (⟨some (accounts.getD ((c + j) % accounts.length) dummyAccount),
          accounts, (c + j + 1) % accounts.length⟩ : TMResult))).length := by
      simpa using hj
    rw [List.getD_eq_getElem _ _ hjlen]
    simp

/-- Witness for C2: two valid credentials, starting cursor 1; the two calls
return the second then the first credential, and each call advances the
cursor past the returned index. -/
theorem rotation_fairness_witness :
    ((getTokenTrace (fun _ => none) 100 wPool.length wPool 1).map
        TMResult.token = (wPool.drop 1 ++ wPool.take 1).map some) ∧
    ((getTokenTrace (fun _ => none) 100 wPool.length wPool 1).map
        TMResult.token).Perm (wPool.map some) ∧
    (∀ j, j < wPool.length →
      ((getTokenTrace (fun _ => none) 100 wPool.length wPool 1).getD j
        ⟨none, [], 0⟩).cursor = (1 + j + 1) % wPool.length) :=
  rotation_fairness (fun _ => none) 100 wPool 1
    (by decide) (by decide) (by decide)

/-- Witness for C6 at `timestamp = 0`, `expires_in = 1059` resp. `1061`,
`now = 1000`. -/
theorem expiry_buffer_witness :
    isExpired ⟨"t", none, 1059, 0, false⟩ 1000 = true ∧
    isExpired ⟨"t", none, 1061, 0, false⟩ 1000 = false ∧
    get_token (fun _ => none) 1000 [⟨"t", none, 1059, 0, false⟩] 0 =
      ⟨none, [⟨"t", none, 1059, 0, false⟩], 0⟩ :=
  ⟨(expiry_buffer ⟨"t", none, 1059, 0, false⟩ 1000 (fun _ => none)
      dummyAccount).1 (by decide),
   (expiry_buffer ⟨"t", none, 1061, 0, false⟩ 1000 (fun _ => none)
      dummyAccount).2.1 (by decide),
   ((expiry_buffer ⟨"t", none, 1059, 0, false⟩ 1000 (fun _ => none)
      dummyAccount).2.2.2.2 rfl (by decide)).2⟩

/-! ## Claims about the message translator -/

/-- Claim C3: two consecutive assistant turns that each carry tool calls and
no non-whitespace text, translated onto a context that does not end in a
`model`-role turn, yield exactly one new `model` turn holding the
concatenation of both turns' tool calls in original order — the second
turn's calls are appended to the turn the first created. -/
theorem assistant_tool_call_merge (parse_ok : String → Bool)
    (ctx : List GMessage) (c1 c2 : Option String) (tc1 tc2 : List ToolCall)
    (hctx : ∀ last, ctx.getLast? = some last → last.role ≠ "model")
    (h1 : tc1 ≠ []) (h2 : tc2 ≠ [])
    (hc1 : hasContent c1 = false) (hc2 : hasContent c2 = false) :
    handle_assistant_message parse_ok c2 tc2
        (handle_assistant_message parse_ok c1 tc1 ctx) =
      ctx ++ [⟨"model", (tc1 ++ tc2).map (toolCallToPart parse_ok)⟩] := by
  have hmapne : tc1.map (toolCallToPart parse_ok) ≠ [] := by
    simpa using h1
  have step1 : handle_assistant_message parse_ok c1 tc1 ctx =
      ctx ++ [⟨"model", tc1.map (toolCallToPart parse_ok)⟩] := by
    simp only [handle_assistant_message]
    cases hl : ctx.getLast? with
    | none =>
      cases c1 with
      | none => simp [hmapne]
      | some s =>
        have hs : s.trim = "" := by simpa [hasContent] using hc1
        simp [hs, hmapne]
    | some last =>
      have hrole : ¬last.role = "model" := hctx last hl
      cases c1 with
      | none => simp [hrole, hmapne]
      | some s =>
        have hs : s.trim = "" := by simpa [hasContent] using hc1
        simp [hs, hrole, hmapne]
  rw [step1]
  have hl2 : (ctx ++ [⟨"model", tc1.map (toolCallToPart parse_ok)⟩] :
      List GMessage).getLast? =
      some ⟨"model", tc1.map (toolCallToPart parse_ok)⟩ :=
    List.getLast?_concat _
  have htc2 : (!tc2.isEmpty) = true := by simpa using h2
  simp only [handle_assistant_message, hl2]
  simp [htc2, hc2, List.dropLast_concat]

/-- Witness for C3: two tool-call-only assistant turns translated from the
empty context merge into one `model` turn. -/
theorem assistant_tool_call_merge_witness :
    handle_assistant_message (fun _ => true) none [⟨"i2", "f2", "x"⟩]
        (handle_assistant_message (fun _ => true) none [⟨"i1", "f1", "y"⟩] []) =
      [] ++ [⟨"model",
        (([⟨"i1", "f1", "y"⟩] : List ToolCall) ++
          ([⟨"i2", "f2", "x"⟩] : List ToolCall)).map
          (toolCallToPart (fun _ => true))⟩] :=
  assistant_tool_call_merge (fun _ => true) [] none none
    [⟨"i1", "f1", "y"⟩] [⟨"i2", "f2", "x"⟩]
    (by intro last h; simp at h) (by decide) (by decide) rfl rfl

theorem findNameInParts_eq_none (tcid : String) (parts : List GPart)
    (hno : ∀ p ∈ parts, isCallWithId tcid p = false) :
    findNameInParts tcid parts = none := by
  induction parts with
  | nil => rfl
  | cons p rest ih =>
    have hrest : findNameInParts tcid rest = none :=
      ih (fun q hq => hno q (List.mem_cons_of_mem p hq))
    cases p with
    | functionCall id name args =>
      have hp := hno _ (List.mem_cons_self _ rest)
      have hid : ¬id = tcid := by simpa [isCallWithId] using hp
      simp [findNameInParts, hid, hrest]
    | text t => simpa [findNameInParts] using hrest
    | inlineData m d => simpa [findNameInParts] using hrest
    | functionResponse i n o => simpa [findNameInParts] using hrest

theorem findNameInParts_first (tcid : String) (parts : List GPart)
    (nm : String)
    (hall : ∀ p ∈ parts, isCallWithId tcid p = true → callName p = nm)
    (hany : parts.any (isCallWithId tcid) = true) :
    findNameInParts tcid parts = some nm := by
  induction parts with
  | nil => simp at hany
  | cons p rest ih =>
    cases p with
    | functionCall id name args =>
      by_cases hid : id = tcid
      · have hnm : callName (GPart.functionCall id name args) = nm :=
          hall _ (List.mem_cons_self _ rest) (by simp [isCallWithId, hid])
        simp only [callName] at hnm
        simp [findNameInParts, hid, hnm]
      · have hany' : rest.any (isCallWithId tcid) = true := by
          simpa [List.any_cons, isCallWithId, hid] using hany
        simp only [findNameInParts, hid, if_false]
        exact ih (fun q hq hcq => hall q (List.mem_cons_of_mem _ hq) hcq) hany'
    | text t =>
      have hany' : rest.any (isCallWithId tcid) = true := by
        simpa [List.any_cons, isCallWithId] using hany
      simp only [findNameInParts]
      exact ih (fun q hq hcq => hall q (List.mem_cons_of_mem _ hq) hcq) hany'
    | inlineData m d =>
      have hany' : rest.any (isCallWithId tcid) = true := by
        simpa [List.any_cons, isCallWithId] using hany
      simp only [findNameInParts]
      exact ih (fun q hq hcq => hall q (List.mem_cons_of_mem _ hq) hcq) hany'
    | functionResponse i n o =>
      have hany' : rest.any (isCallWithId tcid) = true := by
        simpa [List.any_cons, isCallWithId] using hany
      simp only [findNameInParts]
      exact ih (fun q hq hcq => hall q (List.mem_cons_of_mem _ hq) hcq) hany'

theorem findFunctionName_eq (tcid nm : String) (l : List GMessage)
    (hnm : nm ≠ "")
    (hall : ∀ m ∈ l, m.role = "model" → ∀ p ∈ m.parts,
      isCallWithId tcid p = true → callName p = nm)
    (hex : ∃ m ∈ l, m.role = "model" ∧
      m.parts.any (isCallWithId tcid) = true) :
    findFunctionName tcid l = nm := by
  induction l with
  | nil => simp at hex
  | cons m rest ih =>
    by_cases hrole : m.role = "model"
    · cases hany : m.parts.any (isCallWithId tcid) with
      | true =>
        have hfst := findNameInParts_first tcid m.parts nm
          (hall m (List.mem_cons_self _ rest) hrole) hany
        simp [findFunctionName, hrole, hfst, hnm]
      | false =>
        have hnone := findNameInParts_eq_none tcid m.parts
          (fun p hp => by
            rcases hc : isCallWithId tcid p with _ | _
            · rfl
            · exact absurd (List.any_eq_true.mpr ⟨p, hp, hc⟩)
                (by simp [hany]))
        simp only [findFunctionName, hrole, if_true, hnone]
        apply ih (fun m' hm' => hall m' (List.mem_cons_of_mem _ hm'))
        rcases hex with ⟨m', hm', hrole', hany'⟩
        rcases List.mem_cons.mp hm' with rfl | hmem
        · rw [hany'] at hany
          exact absurd hany (by simp)
        · exact ⟨m', hmem, hrole', hany'⟩
    · simp only [findFunctionName, hrole, if_false]
      apply ih (fun m' hm' => hall m' (List.mem_cons_of_mem _ hm'))
      rcases hex with ⟨m', hm', hrole', hany'⟩
      rcases List.mem_cons.mp hm' with rfl | hmem
      · exact absurd hrole' hrole
      · exact ⟨m', hmem, hrole', hany'⟩

theorem findFunctionName_empty (tcid : String) (l : List GMessage)
    (hno : ∀ m ∈ l, m.role = "model" →
      m.parts.any (isCallWithId tcid) = false) :
    findFunctionName tcid l = "" := by
  induction l with
  | nil => rfl
  | cons m rest ih =>
    have hrest : findFunctionName tcid rest = "" :=
      ih (fun m' hm' => hno m' (List.mem_cons_of_mem _ hm'))
    by_cases hrole : m.role = "model"
    · have hany := hno m (List.mem_cons_self _ rest) hrole
      have hnone := findNameInParts_eq_none tcid m.parts
        (fun p hp => by
          rcases hc : isCallWithId tcid p with _ | _
          · rfl
          · exact absurd (List.any_eq_true.mpr ⟨p, hp, hc⟩)
              (by simp [hany]))
      simp [findFunctionName, hrole, hnone, hrest]
    · simp [findFunctionName, hrole, hrest]

theorem lastPartOf_handle_tool_call (tcid out : String)
    (msgs : List GMessage) :
    lastPartOf (handle_tool_call tcid out msgs) =
      some (.functionResponse tcid (findFunctionName tcid msgs.reverse) out) := by
  simp only [handle_tool_call, lastPartOf]
  cases hl : msgs.getLast? with
  | none => simp [List.getLast?_concat]
  | some last =>
    by_cases hcond : last.role = "user" ∧ last.parts.any isFunctionResponse = true
    · have hcond' := hcond
      simp only [List.any_eq_true] at hcond'
      simp [List.getLast?_concat, hcond']
    · have hcond' := hcond
      simp only [List.any_eq_true] at hcond'
      simp [List.getLast?_concat, hcond']

/-- Claim C5: when some `model`-role turn of the context carries a
`functionCall` part with id `"c1"`, and every such matching part is named
`"lookup"`, translating a tool turn with `tool_call_id = "c1"` produces a
`functionResponse` part named `"lookup"` (found by the backward scan). -/
theorem tool_result_pairing (ctx : List GMessage) (out : String)
    (hex : ∃ m ∈ ctx, m.role = "model" ∧
      m.parts.any (isCallWithId "c1") = true)
    (hall : ∀ m ∈ ctx, m.role = "model" → ∀ p ∈ m.parts,
      isCallWithId "c1" p = true → callName p = "lookup") :
    lastPartOf (handle_tool_call "c1" out ctx) =
      some (.functionResponse "c1" "lookup" out) := by
  rw [lastPartOf_handle_tool_call]
  have hname : findFunctionName "c1" ctx.reverse = "lookup" := by
    apply findFunctionName_eq _ _ _ (by decide)
    · intro m hm
      exact hall m (List.mem_reverse.mp hm)
    · rcases hex with ⟨m, hm, hr, ha⟩
      exact ⟨m, List.mem_reverse.mpr hm, hr, ha⟩
  rw [hname]

/-- Witness for C5: one `model` turn carrying `functionCall` id `"c1"` name
`"lookup"`; the tool turn's response part is named `"lookup"`. -/
theorem tool_result_pairing_witness :
    lastPartOf (handle_tool_call "c1" "out"
        [⟨"model", [.functionCall "c1" "lookup" (Args.obj "")]⟩]) =
      some (.functionResponse "c1" "lookup" "out") :=
  tool_result_pairing [⟨"model", [.functionCall "c1" "lookup" (Args.obj "")]⟩]
    "out" (by decide) (by decide)

/-- Claim C10: a tool turn whose `tool_call_id` matches no `functionCall`
part of any `model`-role turn still produces a `functionResponse` part
carrying the original id and output, with the empty string as name. -/
theorem unmatched_tool_result (ctx : List GMessage) (tcid out : String)
    (hno : ∀ m ∈ ctx, m.role = "model" →
      m.parts.any (isCallWithId tcid) = false) :
    lastPartOf (handle_tool_call tcid out ctx) =
      some (.functionResponse tcid "" out) := by
  rw [lastPartOf_handle_tool_call]
  rw [findFunctionName_empty tcid ctx.reverse
    (fun m hm => hno m (List.mem_reverse.mp hm))]

/-- Witness for C10: the only `model` turn carries a `functionCall` with a
different id; the response part is produced with the empty name. -/
theorem unmatched_tool_result_witness :
    lastPartOf (handle_tool_call "c9" "out"
        [⟨"model", [.functionCall "other" "f" (Args.obj "")]⟩]) =
      some (.functionResponse "c9" "" "out") :=
  unmatched_tool_result [⟨"model", [.functionCall "other" "f" (Args.obj "")]⟩]
    "c9" "out" (by decide)

theorem mem_of_getLast?_eq (l : List GMessage) (a : GMessage)
    (h : l.getLast? = some a) : a ∈ l := by
  rcases List.mem_getLast?_eq_getLast (l := l) (x := a) (by simp [h]) with
    ⟨h1, h2⟩
  exact h2 ▸ List.getLast_mem h1

theorem extractItem_no_fr (acc : Extracted) (it : ContentItem)
    (hacc : ∀ g ∈ acc.images, isFunctionResponse g = false) :
    ∀ g ∈ (extractItem acc it).images, isFunctionResponse g = false := by
  cases it with
  | text t => simpa [extractItem] using hacc
  | other => simpa [extractItem] using hacc
  | image_url url =>
    cases hm : match_data_image url with
    | none => simpa [extractItem, addImage, hm] using hacc
    | some fd =>
      intro g hg
      simp [extractItem, addImage, hm] at hg
      rcases hg with hg | hg
      · exact hacc g hg
      · rw [hg]; rfl

theorem foldl_extract_no_fr (l : List ContentItem) :
    ∀ acc : Extracted, (∀ g ∈ acc.images, isFunctionResponse g = false) →
      ∀ g ∈ (l.foldl extractItem acc).images, isFunctionResponse g = false := by
  induction l with
  | nil => intro acc hacc; simpa using hacc
  | cons it rest ih =>
    intro acc hacc
    rw [List.foldl_cons]
    exact ih _ (extractItem_no_fr acc it hacc)

theorem extract_images_no_fr (c : Content) :
    ∀ g ∈ (extract_images_from_content c).images,
      isFunctionResponse g = false := by
  cases c with
  | str s => simp [extract_images_from_content]
  | items l =>
    simp only [extract_images_from_content]
    exact foldl_extract_no_fr l ⟨"", []⟩ (by intro g hg; simp at hg)

theorem userFROnly_user (e : Extracted)
    (hne : ∀ g ∈ e.images, isFunctionResponse g = false)
    (msgs : List GMessage) (h : userFROnly msgs) :
    userFROnly (handle_user_message e msgs) := by
  intro m hm hrole hany
  unfold handle_user_message at hm
  rcases List.mem_append.mp hm with hm' | hm'
  · exact h m hm' hrole hany
  · simp at hm'
    rw [hm'] at hany
    exfalso
    rw [List.any_cons] at hany
    have himg : e.images.any isFunctionResponse = true := by
      simpa [isFunctionResponse] using hany
    rcases List.any_eq_true.mp himg with ⟨g, hg, hfr⟩
    rw [hne g hg] at hfr
    exact Bool.false_ne_true hfr

theorem handle_assistant_mem (parse_ok : String → Bool)
    (content : Option String) (tcs : List ToolCall) (msgs : List GMessage) :
    ∀ m ∈ handle_assistant_message parse_ok content tcs msgs,
      m ∈ msgs ∨ m.role = "model" := by
  intro m hm
  simp only [handle_assistant_message] at hm
  cases hl : msgs.getLast? with
  | none =>
    rw [hl] at hm
    simp only [] at hm
    split_ifs at hm
    · rcases List.mem_append.mp hm with h' | h'
      · exact Or.inl h'
      · simp at h'
        rw [h']
        exact Or.inr rfl
    · exact Or.inl hm
  | some last =>
    rw [hl] at hm
    simp only [] at hm
    split_ifs at hm with hcond1 hcond2
    · rcases List.mem_append.mp hm with h' | h'
      · exact Or.inl (List.Sublist.mem h' (List.dropLast_sublist msgs))
      · simp at h'
        rw [h']
        exact Or.inr hcond1.1
    · rcases List.mem_append.mp hm with h' | h'
      · exact Or.inl h'
      · simp at h'
        rw [h']
        exact Or.inr rfl
    · exact Or.inl hm

theorem userFROnly_assistant (parse_ok : String → Bool)
    (content : Option String) (tcs : List ToolCall) (msgs : List GMessage)
    (h : userFROnly msgs) :
    userFROnly (handle_assistant_message parse_ok content tcs msgs) := by
  intro m hm hrole hany
  rcases handle_assistant_mem parse_ok content tcs msgs m hm with h' | h'
  · exact h m h' hrole hany
  · rw [h'] at hrole
    exact absurd hrole (by decide)

theorem userFROnly_tool (tcid out : String) (msgs : List GMessage)
    (h : userFROnly msgs) :
    userFROnly (handle_tool_call tcid out msgs) := by
  intro m hm hrole hany
  simp only [handle_tool_call] at hm
  cases hl : msgs.getLast? with
  | none =>
    rw [hl] at hm
    simp only [] at hm
    rcases List.mem_append.mp hm with h' | h'
    · exact h m h' hrole hany
    · simp at h'
      rw [h']
      intro p hp
      simp at hp
      rw [hp]
      rfl
  | some last =>
    rw [hl] at hm
    simp only [] at hm
    split_ifs at hm with hcond
    · rcases List.mem_append.mp hm with h' | h'
      · exact h m (List.Sublist.mem h' (List.dropLast_sublist msgs)) hrole hany
      · simp at h'
        have hlast := h last (mem_of_getLast?_eq msgs last hl) hcond.1 hcond.2
        rw [h']
        intro p hp
        rcases List.mem_append.mp hp with hp' | hp'
        · exact hlast p hp'
        · simp at hp'
          rw [hp']
          rfl
    · rcases List.mem_append.mp hm with h' | h'
      · exact h m h' hrole hany
      · simp at h'
        rw [h']
        intro p hp
        simp at hp
        rw [hp]
        rfl

theorem userFROnly_translate (parse_ok : String → Bool)
    (msgs : List OpenAIMessage) :
    userFROnly (openai_message_to_antigravity parse_ok msgs) := by
  unfold openai_message_to_antigravity
  have key : ∀ init, userFROnly init →
      userFROnly (msgs.foldl (translateStep parse_ok) init) := by
    induction msgs with
    | nil => intro init hi; simpa using hi
    | cons msg rest ih =>
      intro init hi
      rw [List.foldl_cons]
      apply ih
      cases msg with
      | user c => exact userFROnly_user _ (extract_images_no_fr c) init hi
      | system c => exact userFROnly_user _ (extract_images_no_fr c) init hi
      | assistant content tcs =>
        exact userFROnly_assistant parse_ok content tcs init hi
      | tool id content => exact userFROnly_tool id content init hi
  exact key [] (by intro m hm; simp at hm)

/-- Claim C8: on any context produced by the translator, a tool turn's
`functionResponse` part is appended to the immediately preceding turn exactly
when that turn is a `user`-role turn holding only `functionResponse` parts
(at least one); otherwise a new `user`-role turn is started. -/
theorem tool_merge_condition (parse_ok : String → Bool)
    (pre : List OpenAIMessage) (tcid out : String) :
    handle_tool_call tcid out (openai_message_to_antigravity parse_ok pre) =
      (match (openai_message_to_antigravity parse_ok pre).getLast? with
       | some last =>
         if last.role = "user" ∧ last.parts ≠ [] ∧
             ∀ p ∈ last.parts, isFunctionResponse p = true then
           (openai_message_to_antigravity parse_ok pre).dropLast ++
             [⟨last.role, last.parts ++
               [GPart.functionResponse tcid
                 (findFunctionName tcid
                   (openai_message_to_antigravity parse_ok pre).reverse)
                 out]⟩]
         else
           openai_message_to_antigravity parse_ok pre ++
             [⟨"user", [GPart.functionResponse tcid
               (findFunctionName tcid
                 (openai_message_to_antigravity parse_ok pre).reverse) out]⟩]
       | none =>
         openai_message_to_antigravity parse_ok pre ++
           [⟨"user", [GPart.functionResponse tcid
             (findFunctionName tcid
               (openai_message_to_antigravity parse_ok pre).reverse) out]⟩]) := by
  have hinv := userFROnly_translate parse_ok pre
  simp only [handle_tool_call]
  cases hl : (openai_message_to_antigravity parse_ok pre).getLast? with
  | none => rfl
  | some last =>
    have hlm : last ∈ openai_message_to_antigravity parse_ok pre :=
      mem_of_getLast?_eq _ last hl
    have hiff : (last.role = "user" ∧
        last.parts.any isFunctionResponse = true) ↔
        (last.role = "user" ∧ last.parts ≠ [] ∧
          ∀ p ∈ last.parts, isFunctionResponse p = true) := by
      constructor
      · rintro ⟨hr, ha⟩
        refine ⟨hr, ?_, hinv last hlm hr ha⟩
        rcases List.any_eq_true.mp ha with ⟨p, hp, _⟩
        intro hnil
        rw [hnil] at hp
        simp at hp
      · rintro ⟨hr, hne, hall⟩
        refine ⟨hr, ?_⟩
        rcases List.exists_mem_of_ne_nil last.parts hne with ⟨p, hp⟩
        exact List.any_eq_true.mpr ⟨p, hp, hall p hp⟩
    exact if_congr hiff rfl rfl

end Gravity
